import Mathlib

/-!
# String-interning extension of a msgpack encoder/decoder: a shallow embedding

This file embeds `intern.go` of the repository: an interning layer over a
msgpack-style binary format.  Strings of length ≥ 3 are recorded in a
per-instance dictionary on first (literal) occurrence; later occurrences of
the same string are emitted as compact index references carried in a
fixed-extension envelope tagged with the reserved extension type `-128`.

Go strings are byte sequences, embedded as `List Nat` (each element a byte
value).  The encoder dictionary `map[string]int` is embedded as an
association list in insertion order; the decoder dictionary `[]string` as a
`List` of strings.  The byte stream read by the decoder is a `List Nat`
consumed from the front; fallible operations return `Except Err α` paired
with the updated state.
-/

namespace Msgpack

/-- A Go string, as its byte sequence. -/
abbrev GoStr := List Nat

/-! Wire code constants of the host msgpack format.
Modelled from the spec: the `msgpcode` package of the host format is not
under `src/`; these are the standard msgpack code bytes the spec's wire
convention refers to (nil, fixed string range, 8/16/32-bit string and
binary codes, fixed-extension envelopes). -/
namespace msgpcode

def Nil : Nat := 0xc0

def FixedStrLow : Nat := 0xa0

def FixedStrHigh : Nat := 0xbf

def FixedStrMask : Nat := 0x1f

def Str8 : Nat := 0xd9

def Str16 : Nat := 0xda

def Str32 : Nat := 0xdb

def Bin8 : Nat := 0xc4

def Bin16 : Nat := 0xc5

def Bin32 : Nat := 0xc6

def FixExt1 : Nat := 0xd4

def FixExt2 : Nat := 0xd5

def FixExt4 : Nat := 0xd6

/-- Modelled from the spec: `msgpcode.IsFixedString` of the host format —
a code byte in the fixed-string range `0xa0 ..= 0xbf`. -/
def IsFixedString (c : Nat) : Bool :=
  decide (FixedStrLow ≤ c) && decide (c ≤ FixedStrHigh)

end msgpcode

/-- `minInternedStringLen = 3` from `intern.go`. -/
def minInternedStringLen : Nat := 3

/-- `maxDictLen = math.MaxUint16` from `intern.go`. -/
def maxDictLen : Nat := 65535

/-- `internedStringExtID = int8(math.MinInt8)` from `intern.go`. -/
def internedStringExtID : Int := -128

/-- The wire byte of a signed 8-bit value, as Go's `byte(i)` conversion. -/
def byteOfInt8 (i : Int) : Nat := (i % 256).toNat

/-- A byte read from the wire interpreted as a signed 8-bit value, as
Go's `int8(b)` conversion. -/
def int8OfByte (b : Nat) : Int := if b < 128 then (b : Int) else (b : Int) - 256

/-- Errors of the interning layer (each `errors.New`/`fmt.Errorf` value of
`intern.go`, plus `eof` for a failing underlying byte-stream read and
`invalidCode` for the string-entry-point wrapping of `errUnexpectedCode`). -/
inductive Err where
  | eof
  | unexpectedCode
  | extTypeMismatch (got : Int)
  | malformedIndexWidth (len : Nat)
  | indexOutOfRange (idx : Nat)
  | indexOverflow (idx : Nat)
  | invalidCode (c : Nat)
  deriving DecidableEq, Repr

/-! ## Big-endian payload bytes (host `write1/write2/write4`, `binary.BigEndian`) -/

/-- Modelled from the spec: the 1-byte payload the host's `write1` emits for
a `uint8` value. -/
def byte1 (n : Nat) : List Nat := [n % 256]

/-- Modelled from the spec: the 2 big-endian payload bytes the host's
`write2` emits for a `uint16` value. -/
def byte2 (n : Nat) : List Nat := [n / 256 % 256, n % 256]

/-- Modelled from the spec: the 4 big-endian payload bytes the host's
`write4` emits for a `uint32` value. -/
def byte4 (n : Nat) : List Nat :=
  [n / 16777216 % 256, n / 65536 % 256, n / 256 % 256, n % 256]

/-- Big-endian value of a byte list, as `binary.BigEndian.Uint16/Uint32`. -/
def fromBigEndian (bs : List Nat) : Nat := bs.foldl (fun a b => a * 256 + b) 0

/-! ## Encoder -/

/-- The encoder dictionary `e.dict : map[string]int`, embedded as an
association list in insertion order (the map only ever grows, keyed by
strings not yet present, with value `len(e.dict)` at insertion time). -/
abbrev EncDict := List (GoStr × Nat)

/-- Go map lookup `e.dict[s]`. -/
def dictFind (dict : EncDict) (s : GoStr) : Option Nat :=
  (dict.find? (fun p => p.1 == s)).map (fun p => p.2)

/-- `Encoder.encodeInternedStringIndex` from `intern.go`: narrowest of the
three fixed-extension envelopes, tagged with the reserved type byte. -/
def encodeInternedStringIndex (idx : Nat) : Except Err (List Nat) :=
  if idx ≤ 255 then
    .ok (msgpcode.FixExt1 :: byteOfInt8 internedStringExtID :: byte1 idx)
  else if idx ≤ 65535 then
    .ok (msgpcode.FixExt2 :: byteOfInt8 internedStringExtID :: byte2 idx)
  else if idx ≤ 4294967295 then
    .ok (msgpcode.FixExt4 :: byteOfInt8 internedStringExtID :: byte4 idx)
  else
    .error (.indexOverflow idx)

/-- Modelled from the spec: the host format's `encodeNormalString` (not under
`src/`): a literal string is the standard msgpack length-prefixed form —
fixed short form for length < 32, else the 8/16/32-bit length-prefixed
string codes — followed by the raw bytes. -/
def encodeNormalString (s : GoStr) : List Nat :=
  if s.length < 32 then (0xa0 + s.length) :: s
  else if s.length < 256 then msgpcode.Str8 :: s.length % 256 :: s
  else if s.length < 65536 then msgpcode.Str16 :: byte2 s.length ++ s
  else msgpcode.Str32 :: byte4 s.length ++ s

/-- `Encoder.encodeInternedString` from `intern.go`.  Returns the emitted
wire bytes (or the error) together with the updated dictionary. -/
def encodeInternedString (dict : EncDict) (s : GoStr) (intern : Bool) :
    Except Err (List Nat) × EncDict :=
  if minInternedStringLen ≤ s.length then
    match dictFind dict s with
    | some idx => (encodeInternedStringIndex idx, dict)
    | none =>
      if intern = true ∧ dict.length < maxDictLen then
        (.ok (encodeNormalString s), dict ++ [(s, dict.length)])
      else
        (.ok (encodeNormalString s), dict)
  else
    (.ok (encodeNormalString s), dict)

/-! ## Decoder -/

/-- The decoder state: the decode dictionary `d.dict : []string` and the
remaining byte stream of the reader `d.s`. -/
structure DecSt where
  dict : List GoStr
  buf : List Nat
  deriving DecidableEq, Repr

/-- A one-byte read from the stream (`d.s.ReadByte`, `d.readCode`). -/
def readByte (st : DecSt) : Except Err Nat × DecSt :=
  match st.buf with
  | [] => (.error .eof, st)
  | b :: rest => (.ok b, { st with buf := rest })

/-- An `n`-byte read from the stream (`d.readN`). -/
def readN (n : Nat) (st : DecSt) : Except Err (List Nat) × DecSt :=
  if n ≤ st.buf.length then (.ok (st.buf.take n), { st with buf := st.buf.drop n })
  else (.error .eof, st)

/-- Modelled from the spec: the host's `d.stringWithLen n` (not under
`src/`) reads exactly `n` bytes from the stream as the string's payload. -/
def stringWithLen (n : Nat) (st : DecSt) : Except Err GoStr × DecSt :=
  readN n st

/-- Modelled from the spec: the host's `d.extHeader c` (not under `src/`)
for a fixed-extension code: the payload length is fixed by the code
(`FixExt1 → 1`, `FixExt2 → 2`, `FixExt4 → 4`) and one type-tag byte is read
and interpreted as a signed 8-bit extension type id. -/
def extHeader (c : Nat) (st : DecSt) : Except Err (Int × Nat) × DecSt :=
  let extLen : Nat :=
    if c = msgpcode.FixExt1 then 1
    else if c = msgpcode.FixExt2 then 2
    else 4
  match readByte st with
  | (.error e, st') => (.error e, st')
  | (.ok b, st') => (.ok (int8OfByte b, extLen), st')

/-- `Decoder.decodeInternedStringIndex` from `intern.go`. -/
def decodeInternedStringIndex (length : Nat) (st : DecSt) :
    Except Err Nat × DecSt :=
  if length = 1 then
    match readByte st with
    | (.error e, st') => (.error e, st')
    | (.ok c, st') => (.ok c, st')
  else if length = 2 then
    match readN 2 st with
    | (.error e, st') => (.error e, st')
    | (.ok b, st') => (.ok (fromBigEndian b), st')
  else if length = 4 then
    match readN 4 st with
    | (.error e, st') => (.error e, st')
    | (.ok b, st') => (.ok (fromBigEndian b), st')
  else
    (.error (.malformedIndexWidth length), st)

/-- `Decoder.internedStringAtIndex` from `intern.go`. -/
def internedStringAtIndex (st : DecSt) (idx : Nat) : Except Err GoStr × DecSt :=
  if st.dict.length ≤ idx then (.error (.indexOutOfRange idx), st)
  else (.ok (st.dict.getD idx []), st)

/-- `Decoder.decodeInternedStringWithLen` from `intern.go`. -/
def decodeInternedStringWithLen (n : Nat) (intern : Bool) (st : DecSt) :
    Except Err GoStr × DecSt :=
  if n = 0 then (.ok [], st)
  else
    match stringWithLen n st with
    | (.error e, st') => (.error e, st')
    | (.ok s, st') =>
      if intern = true ∧ minInternedStringLen ≤ s.length ∧ st'.dict.length < maxDictLen then
        (.ok s, { st' with dict := st'.dict ++ [s] })
      else
        (.ok s, st')

/-- `Decoder.decodeInternedString` from `intern.go`, given the already-read
leading code byte `c`. -/
def decodeInternedString (c : Nat) (intern : Bool) (st : DecSt) :
    Except Err GoStr × DecSt :=
  if msgpcode.IsFixedString c then
    decodeInternedStringWithLen (c &&& msgpcode.FixedStrMask) intern st
  else if c = msgpcode.Nil then
    (.ok [], st)
  else if c = msgpcode.FixExt1 ∨ c = msgpcode.FixExt2 ∨ c = msgpcode.FixExt4 then
    match extHeader c st with
    | (.error e, st1) => (.error e, st1)
    | (.ok (typeID, extLen), st1) =>
      if typeID ≠ internedStringExtID then
        (.error (.extTypeMismatch typeID), st1)
      else
        match decodeInternedStringIndex extLen st1 with
        | (.error e, st2) => (.error e, st2)
        | (.ok idx, st2) => internedStringAtIndex st2 idx
  else if c = msgpcode.Str8 ∨ c = msgpcode.Bin8 then
    match readByte st with
    | (.error e, st1) => (.error e, st1)
    | (.ok n, st1) => decodeInternedStringWithLen n intern st1
  else if c = msgpcode.Str16 ∨ c = msgpcode.Bin16 then
    match readN 2 st with
    | (.error e, st1) => (.error e, st1)
    | (.ok b, st1) => decodeInternedStringWithLen (fromBigEndian b) intern st1
  else if c = msgpcode.Str32 ∨ c = msgpcode.Bin32 then
    match readN 4 st with
    | (.error e, st1) => (.error e, st1)
    | (.ok b, st1) => decodeInternedStringWithLen (fromBigEndian b) intern st1
  else
    (.error .unexpectedCode, st)

/-- `decodeInternedStringValue` from `intern.go`: the string-only decode
entry point; an `errUnexpectedCode` failure becomes the hard
"invalid code decoding intern string" error. -/
def decodeInternedStringValue (st : DecSt) : Except Err GoStr × DecSt :=
  match readByte st with
  | (.error e, st1) => (.error e, st1)
  | (.ok c, st1) =>
    match decodeInternedString c true st1 with
    | (.ok s, st2) => (.ok s, st2)
    | (.error e, st2) =>
      if e = .unexpectedCode then (.error (.invalidCode c), st2)
      else (.error e, st2)

/-- The value bound by the interface-typed decode entry point: either an
interned string or whatever the host's generic value decoder produced. -/
inductive IVal where
  | str (s : GoStr)
  | other (tag : Nat)
  deriving DecidableEq, Repr

/-- `decodeInternedInterfaceValue` from `intern.go`, parameterized by the
host format's generic value decoder `g` (`decodeInterfaceValue`, an external
collaborator).  `d.s.UnreadByte()` is embedded as pushing the code byte back
onto the stream: on the `errUnexpectedCode` path the last byte read from the
stream is exactly that code byte (`decodeInternedString` consumes nothing
past it when it fails this way, proved below as
`decodeInternedString_unexpectedCode_state`). -/
def decodeInternedInterfaceValue (g : DecSt → Except Err IVal × DecSt)
    (st : DecSt) : Except Err IVal × DecSt :=
  match readByte st with
  | (.error e, st1) => (.error e, st1)
  | (.ok c, st1) =>
    match decodeInternedString c true st1 with
    | (.ok s, st2) => (.ok (.str s), st2)
    | (.error e, st2) =>
      if e ≠ .unexpectedCode then (.error e, st2)
      else g { st2 with buf := c :: st2.buf }

/-! ## Drivers: a sequence of values through the interning entry points -/

/-- Encoding a list of strings with the interning entry point
(`encodeInternedStringValue`, i.e. `encodeInternedString` with the intern
flag set), one after the other on one encoder instance.  Returns the list of
per-string wire chunks; the wire is their concatenation. -/
def encodeStrings : EncDict → List GoStr → Except Err (List (List Nat)) × EncDict
  | dict, [] => (.ok [], dict)
  | dict, s :: ss =>
    match encodeInternedString dict s true with
    | (.error e, d1) => (.error e, d1)
    | (.ok w, d1) =>
      match encodeStrings d1 ss with
      | (.error e, d2) => (.error e, d2)
      | (.ok ws, d2) => (.ok (w :: ws), d2)

/-- Decoding `k` strings with the interning entry point
(`decodeInternedStringValue`), one after the other on one decoder
instance. -/
def decodeStrings : DecSt → Nat → Except Err (List GoStr) × DecSt
  | st, 0 => (.ok [], st)
  | st, k + 1 =>
    match decodeInternedStringValue st with
    | (.error e, st1) => (.error e, st1)
    | (.ok s, st1) =>
      match decodeStrings st1 k with
      | (.error e, st2) => (.error e, st2)
      | (.ok ss, st2) => (.ok (s :: ss), st2)

/-! ## Analysis layer

The encoder dictionary is determined by its list of keys in insertion
order: entry `k` of the association list is `(key, k)`.  The definitions
below give that keys-view of the dictionary, the per-string wire chunk the
encoder emits, and the dictionary-evolution step, so that the behaviour of
`encodeStrings`/`decodeStrings` can be characterized in closed form. -/

/-- First index of `s` among the keys, mirroring `e.dict[s]` lookup. -/
def keyIdx : List GoStr → GoStr → Option Nat
  | [], _ => none
  | k :: ks, s => if k = s then some 0 else (keyIdx ks s).map (fun i => i + 1)

/-- The association list whose entries are the given keys numbered from
`i` upward. -/
def mkDictFrom (i : Nat) : List GoStr → EncDict
  | [] => []
  | k :: ks => (k, i) :: mkDictFrom (i + 1) ks

/-- The encoder dictionary holding `keys` in insertion order. -/
def mkDict (keys : List GoStr) : EncDict := mkDictFrom 0 keys

/-- How one interning-encoder call evolves the dictionary keys: a string of
length ≥ 3 that is not yet present is appended while the dictionary is
below the 65,535-entry cap; nothing else changes the dictionary. -/
def stepKeys (keys : List GoStr) (s : GoStr) : List GoStr :=
  if minInternedStringLen ≤ s.length ∧ keyIdx keys s = none ∧ keys.length < maxDictLen
  then keys ++ [s] else keys

/-- Dictionary keys after a sequence of interning-encoder calls. -/
def runKeys : List GoStr → List GoStr → List GoStr := List.foldl stepKeys

/-- The reference wire bytes for index `idx` (the `.ok` payload of
`encodeInternedStringIndex` for an in-range index). -/
def refBytes (idx : Nat) : List Nat :=
  if idx ≤ 255 then msgpcode.FixExt1 :: 128 :: byte1 idx
  else if idx ≤ 65535 then msgpcode.FixExt2 :: 128 :: byte2 idx
  else msgpcode.FixExt4 :: 128 :: byte4 idx

/-- The wire chunk one interning-encoder call emits for `s` given the
current dictionary keys: a reference for a present string of length ≥ 3,
a plain literal otherwise. -/
def chunkOf (keys : List GoStr) (s : GoStr) : List Nat :=
  if minInternedStringLen ≤ s.length then
    match keyIdx keys s with
    | some i => refBytes i
    | none => encodeNormalString s
  else encodeNormalString s

/-- The per-string wire chunks of a sequence of interning-encoder calls. -/
def chunksFrom : List GoStr → List GoStr → List (List Nat)
  | _, [] => []
  | keys, s :: ss => chunkOf keys s :: chunksFrom (stepKeys keys s) ss

/-- A wire chunk that is a reference: it opens with a fixed-extension
envelope code. -/
def isRefChunk (w : List Nat) : Bool :=
  match w with
  | c :: _ => c == msgpcode.FixExt1 || c == msgpcode.FixExt2 || c == msgpcode.FixExt4
  | [] => false

/-- A wire chunk that is a literal: it opens with one of the host format's
string or binary codes. -/
def isLitChunk (w : List Nat) : Bool :=
  match w with
  | c :: _ =>
    msgpcode.IsFixedString c || c == msgpcode.Str8 || c == msgpcode.Str16 ||
      c == msgpcode.Str32 || c == msgpcode.Bin8 || c == msgpcode.Bin16 ||
      c == msgpcode.Bin32
  | [] => false

/-- How one literal decode evolves the decode dictionary when the intern
flag is set: a literal of length ≥ 3 is appended while below the cap. -/
def internStep (dd : List GoStr) (s : GoStr) : List GoStr :=
  if minInternedStringLen ≤ s.length ∧ dd.length < maxDictLen then dd ++ [s] else dd

/-- The big-endian bytes of `v` in width `w`, as the spec words the
reference payload: "a big-endian unsigned integer of width 1, 2, or 4
bytes". -/
def beBytes : Nat → Nat → List Nat
  | 0, _ => []
  | w + 1, v => beBytes w (v / 256) ++ [v % 256]

/-- The Reference Codec encoder exactly as the spec words it: the narrowest
of the 1/2/4-byte big-endian payloads that fits the index, wrapped in the
matching fixed-extension envelope tagged with the reserved type byte;
indices beyond the 4-byte range fail with IndexOverflow. -/
def specEncodeIndex (idx : Nat) : Except Err (List Nat) :=
  if idx ≤ 255 then
    .ok (msgpcode.FixExt1 :: byteOfInt8 internedStringExtID :: beBytes 1 idx)
  else if idx ≤ 65535 then
    .ok (msgpcode.FixExt2 :: byteOfInt8 internedStringExtID :: beBytes 2 idx)
  else if idx ≤ 4294967295 then
    .ok (msgpcode.FixExt4 :: byteOfInt8 internedStringExtID :: beBytes 4 idx)
  else
    .error (.indexOverflow idx)

/-- The `i`-th member of a family of pairwise distinct strings of length 3:
the three big-endian base-256 digit bytes of `i` (exact for `i < 2^24`). -/
def fillStr (i : Nat) : GoStr := [i / 65536, i / 256 % 256, i % 256]

/-- The first `n` members of the `fillStr` family. -/
def fillStrs (n : Nat) : List GoStr := (List.range n).map fillStr

/-- A length-3 string that is not among `fillStrs 65535` (it is `fillStr
65536`, whose leading digit byte is 1 while every member of `fillStrs 65535`
has leading digit byte 0). -/
def freshStr : GoStr := [1, 0, 0]

/-- An encode-call input that first interns 65,535 distinct eligible
strings, filling the dictionary to its cap, and then offers `freshStr`
twice. -/
def capInput : List GoStr := fillStrs 65535 ++ [freshStr, freshStr]

/-! ## Byte-level and dictionary-structure lemmas -/

theorem fromBigEndian_one (b : Nat) : fromBigEndian [b] = b := by
  simp [fromBigEndian]

theorem fromBigEndian_two (a b : Nat) : fromBigEndian [a, b] = a * 256 + b := by
  simp [fromBigEndian]

theorem fromBigEndian_byte2 (n : Nat) (h : n < 65536) :
    fromBigEndian (byte2 n) = n := by
  simp only [byte2, fromBigEndian, List.foldl]
  omega

theorem fromBigEndian_byte4 (n : Nat) (h : n < 4294967296) :
    fromBigEndian (byte4 n) = n := by
  simp only [byte4, fromBigEndian, List.foldl]
  omega

@[simp] theorem byte2_length (n : Nat) : (byte2 n).length = 2 := rfl

@[simp] theorem byte4_length (n : Nat) : (byte4 n).length = 4 := rfl

theorem fixedStr_land (l : Nat) (h : l < 32) : (160 + l) &&& 31 = l := by
  interval_cases l <;> decide

theorem isFixedString_add (l : Nat) (h : l < 32) :
    msgpcode.IsFixedString (160 + l) = true := by
  simp only [msgpcode.IsFixedString, msgpcode.FixedStrLow, msgpcode.FixedStrHigh,
    Bool.and_eq_true, decide_eq_true_eq]
  omega

@[simp] theorem readByte_cons (dict : List GoStr) (b : Nat) (rest : List Nat) :
    readByte ⟨dict, b :: rest⟩ = (.ok b, ⟨dict, rest⟩) := rfl

@[simp] theorem readByte_nil (dict : List GoStr) :
    readByte ⟨dict, []⟩ = (.error .eof, ⟨dict, []⟩) := rfl

theorem readN_append (dict : List GoStr) (p rest : List Nat) :
    readN p.length ⟨dict, p ++ rest⟩ = (.ok p, ⟨dict, rest⟩) := by
  unfold readN
  rw [if_pos (by simp)]
  simp [List.take_left, List.drop_left]

theorem mkDictFrom_length (i : Nat) (ks : List GoStr) :
    (mkDictFrom i ks).length = ks.length := by
  induction ks generalizing i with
  | nil => rfl
  | cons k ks ih => simp [mkDictFrom, ih]

theorem mkDictFrom_append_one (i : Nat) (ks : List GoStr) (s : GoStr) :
    mkDictFrom i (ks ++ [s]) = mkDictFrom i ks ++ [(s, i + ks.length)] := by
  induction ks generalizing i with
  | nil => simp [mkDictFrom]
  | cons k ks ih =>
    have harith : i + 1 + ks.length = i + (ks.length + 1) := by omega
    simp only [List.cons_append, mkDictFrom, List.append_eq, ih, List.length_cons, harith]

theorem dictFind_mkDictFrom (i : Nat) (ks : List GoStr) (s : GoStr) :
    dictFind (mkDictFrom i ks) s = (keyIdx ks s).map (fun j => i + j) := by
  induction ks generalizing i with
  | nil => rfl
  | cons k ks ih =>
    by_cases hk : k = s
    · simp only [mkDictFrom, dictFind, keyIdx, if_pos hk]
      rw [List.find?_cons_of_pos _ (by simpa using hk)]
      simp
    · simp only [mkDictFrom, dictFind, keyIdx, if_neg hk]
      rw [List.find?_cons_of_neg _ (by simpa using hk)]
      have := ih (i + 1)
      simp only [dictFind] at this
      rw [this]
      cases keyIdx ks s with
      | none => simp
      | some j =>
        simp only [Option.map_some']
        congr 1
        omega

theorem dictFind_mkDict (ks : List GoStr) (s : GoStr) :
    dictFind (mkDict ks) s = keyIdx ks s := by
  rw [mkDict, dictFind_mkDictFrom]
  cases keyIdx ks s <;> simp

theorem keyIdx_eq_none_iff (ks : List GoStr) (s : GoStr) :
    keyIdx ks s = none ↔ s ∉ ks := by
  induction ks with
  | nil => simp [keyIdx]
  | cons k ks ih =>
    by_cases hk : k = s
    · simp [keyIdx, if_pos hk, hk]
    · simp only [keyIdx, if_neg hk, Option.map_eq_none', ih, List.mem_cons]
      constructor
      · intro h hmem
        rcases hmem with h1 | h1
        · exact hk h1.symm
        · exact h h1
      · intro h hmem
        exact h (Or.inr hmem)

theorem keyIdx_lt_length (ks : List GoStr) (s : GoStr) (i : Nat)
    (h : keyIdx ks s = some i) : i < ks.length := by
  induction ks generalizing i with
  | nil => simp [keyIdx] at h
  | cons k ks ih =>
    by_cases hk : k = s
    · rw [keyIdx, if_pos hk] at h
      simp only [Option.some.injEq] at h
      simp [← h]
    · rw [keyIdx, if_neg hk] at h
      cases hkk : keyIdx ks s with
      | none => rw [hkk] at h; simp at h
      | some j =>
        rw [hkk] at h
        simp only [Option.map_some', Option.some.injEq] at h
        have := ih j hkk
        simp only [List.length_cons]
        omega

theorem keyIdx_getD (ks : List GoStr) (s : GoStr) (i : Nat)
    (h : keyIdx ks s = some i) : ks.getD i [] = s := by
  induction ks generalizing i with
  | nil => simp [keyIdx] at h
  | cons k ks ih =>
    by_cases hk : k = s
    · rw [keyIdx, if_pos hk] at h
      simp only [Option.some.injEq] at h
      simp [← h, hk]
    · rw [keyIdx, if_neg hk] at h
      cases hkk : keyIdx ks s with
      | none => rw [hkk] at h; simp at h
      | some j =>
        rw [hkk] at h
        simp only [Option.map_some', Option.some.injEq] at h
        subst h
        simpa using ih j hkk

theorem encodeInternedStringIndex_eq_refBytes (idx : Nat)
    (h : idx ≤ 4294967295) : encodeInternedStringIndex idx = .ok (refBytes idx) := by
  have htag : byteOfInt8 internedStringExtID = 128 := by decide
  unfold encodeInternedStringIndex refBytes
  rw [htag]
  by_cases h1 : idx ≤ 255
  · rw [if_pos h1, if_pos h1]
  · rw [if_neg h1, if_neg h1]
    by_cases h2 : idx ≤ 65535
    · rw [if_pos h2, if_pos h2]
    · rw [if_neg h2, if_neg h2, if_pos h]

/-! ## Exact-shape decode lemmas -/

theorem readN_byte2 (dd : List GoStr) (n : Nat) (rest : List Nat) :
    readN 2 ⟨dd, byte2 n ++ rest⟩ = (.ok (byte2 n), ⟨dd, rest⟩) := by
  have h := readN_append dd (byte2 n) rest
  rwa [byte2_length] at h

theorem readN_byte4 (dd : List GoStr) (n : Nat) (rest : List Nat) :
    readN 4 ⟨dd, byte4 n ++ rest⟩ = (.ok (byte4 n), ⟨dd, rest⟩) := by
  have h := readN_append dd (byte4 n) rest
  rwa [byte4_length] at h

theorem stringWithLen_exact (s : GoStr) (dd : List GoStr) (rest : List Nat) :
    stringWithLen s.length ⟨dd, s ++ rest⟩ = (.ok s, ⟨dd, rest⟩) := by
  unfold stringWithLen
  exact readN_append dd s rest

theorem decodeInternedStringWithLen_exact (s : GoStr) (dd : List GoStr)
    (rest : List Nat) (i : Bool) :
    decodeInternedStringWithLen s.length i ⟨dd, s ++ rest⟩ =
      (.ok s,
        ⟨if i = true ∧ minInternedStringLen ≤ s.length ∧ dd.length < maxDictLen
          then dd ++ [s] else dd, rest⟩) := by
  by_cases h0 : s.length = 0
  · have hs : s = [] := List.length_eq_zero.mp h0
    subst hs
    simp [decodeInternedStringWithLen, minInternedStringLen]
  · unfold decodeInternedStringWithLen
    rw [if_neg h0, stringWithLen_exact]
    show (if i = true ∧ minInternedStringLen ≤ s.length ∧ dd.length < maxDictLen
        then ((Except.ok s : Except Err GoStr), (⟨dd ++ [s], rest⟩ : DecSt))
        else (Except.ok s, ⟨dd, rest⟩)) = _
    by_cases hc : i = true ∧ minInternedStringLen ≤ s.length ∧ dd.length < maxDictLen
    · rw [if_pos hc, if_pos hc]
    · rw [if_neg hc, if_neg hc]

/-! Equation lemmas for `decodeInternedString` at each class of code byte. -/

theorem decodeInternedString_str8 (i : Bool) (st : DecSt) :
    decodeInternedString msgpcode.Str8 i st =
      match readByte st with
      | (.error e, st1) => (.error e, st1)
      | (.ok n, st1) => decodeInternedStringWithLen n i st1 := rfl

theorem decodeInternedString_str16 (i : Bool) (st : DecSt) :
    decodeInternedString msgpcode.Str16 i st =
      match readN 2 st with
      | (.error e, st1) => (.error e, st1)
      | (.ok b, st1) => decodeInternedStringWithLen (fromBigEndian b) i st1 := rfl

theorem decodeInternedString_str32 (i : Bool) (st : DecSt) :
    decodeInternedString msgpcode.Str32 i st =
      match readN 4 st with
      | (.error e, st1) => (.error e, st1)
      | (.ok b, st1) => decodeInternedStringWithLen (fromBigEndian b) i st1 := rfl

/-- The extension-envelope path of `decodeInternedString`: the type-tag byte
is read, a mismatched tag fails, and a matching tag reads the index of the
width fixed by the envelope code and looks it up. -/
theorem decodeInternedString_ext (c extLen : Nat)
    (hc : (c = msgpcode.FixExt1 ∧ extLen = 1) ∨ (c = msgpcode.FixExt2 ∧ extLen = 2) ∨
      (c = msgpcode.FixExt4 ∧ extLen = 4))
    (i : Bool) (dd : List GoStr) (t : Nat) (rest : List Nat) :
    decodeInternedString c i ⟨dd, t :: rest⟩ =
      if int8OfByte t ≠ internedStringExtID
      then (.error (.extTypeMismatch (int8OfByte t)), ⟨dd, rest⟩)
      else
        match decodeInternedStringIndex extLen ⟨dd, rest⟩ with
        | (.error e, st2) => (.error e, st2)
        | (.ok idx, st2) => internedStringAtIndex st2 idx := by
  rcases hc with ⟨rfl, rfl⟩ | ⟨rfl, rfl⟩ | ⟨rfl, rfl⟩ <;> rfl

theorem decodeInternedStringIndex_one (dd : List GoStr) (b : Nat) (rest : List Nat) :
    decodeInternedStringIndex 1 ⟨dd, b :: rest⟩ = (.ok b, ⟨dd, rest⟩) := rfl

theorem decodeInternedStringIndex_two (dd : List GoStr) (n : Nat) (rest : List Nat) :
    decodeInternedStringIndex 2 ⟨dd, byte2 n ++ rest⟩ =
      (.ok (fromBigEndian (byte2 n)), ⟨dd, rest⟩) := by
  unfold decodeInternedStringIndex
  rw [if_neg (by decide), if_pos rfl, readN_byte2]

theorem decodeInternedStringIndex_four (dd : List GoStr) (n : Nat) (rest : List Nat) :
    decodeInternedStringIndex 4 ⟨dd, byte4 n ++ rest⟩ =
      (.ok (fromBigEndian (byte4 n)), ⟨dd, rest⟩) := by
  unfold decodeInternedStringIndex
  rw [if_neg (by decide), if_neg (by decide), if_pos rfl, readN_byte4]

theorem internedStringAtIndex_lt (dd : List GoStr) (rest : List Nat) (idx : Nat)
    (hlt : idx < dd.length) :
    internedStringAtIndex ⟨dd, rest⟩ idx = (.ok (dd.getD idx []), ⟨dd, rest⟩) := by
  unfold internedStringAtIndex
  have hnot : ¬ (⟨dd, rest⟩ : DecSt).dict.length ≤ idx := by
    show ¬ dd.length ≤ idx
    omega
  rw [if_neg hnot]

theorem decodeInternedStringValue_cons (dd : List GoStr) (c : Nat) (rest : List Nat) :
    decodeInternedStringValue ⟨dd, c :: rest⟩ =
      match decodeInternedString c true ⟨dd, rest⟩ with
      | (.ok s, st2) => (.ok s, st2)
      | (.error e, st2) =>
        if e = .unexpectedCode then (.error (.invalidCode c), st2)
        else (.error e, st2) := rfl

theorem decodeInternedStringValue_append (dd : List GoStr) (c : Nat)
    (body rest : List Nat) (s : GoStr) (st' : DecSt)
    (hdec : decodeInternedString c true ⟨dd, body ++ rest⟩ = (.ok s, st')) :
    decodeInternedStringValue ⟨dd, (c :: body) ++ rest⟩ = (.ok s, st') := by
  rw [List.cons_append, decodeInternedStringValue_cons, hdec]

theorem decodeInternedString_with_intern (s : GoStr) (dd : List GoStr)
    (rest : List Nat) :
    decodeInternedStringWithLen s.length true ⟨dd, s ++ rest⟩ =
      (.ok s, ⟨internStep dd s, rest⟩) := by
  rw [decodeInternedStringWithLen_exact]
  simp [internStep]

/-- Decoding one literal chunk through the string entry point: the literal
is returned and the decode dictionary grows by `internStep`. -/
theorem decode_literal_value (s : GoStr) (dd : List GoStr) (rest : List Nat)
    (h32 : s.length < 4294967296) :
    decodeInternedStringValue ⟨dd, encodeNormalString s ++ rest⟩ =
      (.ok s, ⟨internStep dd s, rest⟩) := by
  unfold encodeNormalString
  by_cases h1 : s.length < 32
  · rw [if_pos h1]
    refine decodeInternedStringValue_append dd _ s rest s _ ?_
    have hfs : msgpcode.IsFixedString (160 + s.length) = true := isFixedString_add _ h1
    unfold decodeInternedString
    rw [if_pos hfs]
    have hmask : (160 + s.length) &&& msgpcode.FixedStrMask = s.length :=
      fixedStr_land _ h1
    rw [hmask]
    exact decodeInternedString_with_intern s dd rest
  · rw [if_neg h1]
    by_cases h2 : s.length < 256
    · rw [if_pos h2, Nat.mod_eq_of_lt h2]
      refine decodeInternedStringValue_append dd _ (s.length :: s) rest s _ ?_
      show decodeInternedStringWithLen s.length true ⟨dd, s ++ rest⟩ = _
      exact decodeInternedString_with_intern s dd rest
    · rw [if_neg h2]
      by_cases h3 : s.length < 65536
      · rw [if_pos h3]
        refine decodeInternedStringValue_append dd _ (byte2 s.length ++ s) rest s _ ?_
        rw [List.append_assoc, decodeInternedString_str16, readN_byte2]
        show decodeInternedStringWithLen (fromBigEndian (byte2 s.length)) true
          ⟨dd, s ++ rest⟩ = _
        rw [fromBigEndian_byte2 _ h3]
        exact decodeInternedString_with_intern s dd rest
      · rw [if_neg h3]
        refine decodeInternedStringValue_append dd _ (byte4 s.length ++ s) rest s _ ?_
        rw [List.append_assoc, decodeInternedString_str32, readN_byte4]
        show decodeInternedStringWithLen (fromBigEndian (byte4 s.length)) true
          ⟨dd, s ++ rest⟩ = _
        rw [fromBigEndian_byte4 _ h32]
        exact decodeInternedString_with_intern s dd rest

/-- Decoding one reference chunk through the string entry point: the stored
string at the index is returned and the decode dictionary is unchanged. -/
theorem decode_ref_value (idx : Nat) (dd : List GoStr) (rest : List Nat)
    (hlt : idx < dd.length) (h32 : idx ≤ 4294967295) :
    decodeInternedStringValue ⟨dd, refBytes idx ++ rest⟩ =
      (.ok (dd.getD idx []), ⟨dd, rest⟩) := by
  have hlook := internedStringAtIndex_lt dd rest idx hlt
  unfold refBytes
  by_cases h1 : idx ≤ 255
  · rw [if_pos h1]
    refine decodeInternedStringValue_append dd _ (128 :: byte1 idx) rest _ _ ?_
    rw [List.cons_append,
      decodeInternedString_ext msgpcode.FixExt1 1 (Or.inl ⟨rfl, rfl⟩),
      if_neg (by decide)]
    show (match decodeInternedStringIndex 1 ⟨dd, byte1 idx ++ rest⟩ with
      | (.error e, st2) => ((.error e : Except Err GoStr), st2)
      | (.ok j, st2) => internedStringAtIndex st2 j) = _
    have hb1 : byte1 idx ++ rest = idx % 256 :: rest := rfl
    rw [hb1, decodeInternedStringIndex_one, Nat.mod_eq_of_lt (by omega)]
    exact hlook
  · rw [if_neg h1]
    by_cases h2 : idx ≤ 65535
    · rw [if_pos h2]
      refine decodeInternedStringValue_append dd _ (128 :: byte2 idx) rest _ _ ?_
      rw [List.cons_append,
        decodeInternedString_ext msgpcode.FixExt2 2 (Or.inr (Or.inl ⟨rfl, rfl⟩)),
        if_neg (by decide), decodeInternedStringIndex_two]
      show internedStringAtIndex ⟨dd, rest⟩ (fromBigEndian (byte2 idx)) = _
      rw [fromBigEndian_byte2 _ (by omega)]
      exact hlook
    · rw [if_neg h2]
      refine decodeInternedStringValue_append dd _ (128 :: byte4 idx) rest _ _ ?_
      rw [List.cons_append,
        decodeInternedString_ext msgpcode.FixExt4 4 (Or.inr (Or.inr ⟨rfl, rfl⟩)),
        if_neg (by decide), decodeInternedStringIndex_four]
      show internedStringAtIndex ⟨dd, rest⟩ (fromBigEndian (byte4 idx)) = _
      rw [fromBigEndian_byte4 _ (by omega)]
      exact hlook

/-! ## Encoder-decoder synchronization -/

theorem stepKeys_le (keys : List GoStr) (s : GoStr)
    (h : keys.length ≤ maxDictLen) : (stepKeys keys s).length ≤ maxDictLen := by
  unfold stepKeys
  by_cases hc : minInternedStringLen ≤ s.length ∧ keyIdx keys s = none ∧
      keys.length < maxDictLen
  · rw [if_pos hc]
    have := hc.2.2
    simp only [List.length_append, List.length_cons, List.length_nil]
    omega
  · rw [if_neg hc]
    exact h

/-- One interning-encoder call on the dictionary holding `keys`: it emits
`chunkOf keys s` and the dictionary keys evolve by `stepKeys`. -/
theorem encodeInternedString_step (keys : List GoStr) (s : GoStr)
    (hlen : keys.length ≤ maxDictLen) :
    encodeInternedString (mkDict keys) s true =
      (.ok (chunkOf keys s), mkDict (stepKeys keys s)) := by
  have hmlen : (mkDict keys).length = keys.length := mkDictFrom_length 0 keys
  by_cases h3 : minInternedStringLen ≤ s.length
  · cases hk : keyIdx keys s with
    | some i =>
      have hi : i < keys.length := keyIdx_lt_length keys s i hk
      have hchunk : chunkOf keys s = refBytes i := by
        unfold chunkOf
        rw [if_pos h3, hk]
      have hstep : stepKeys keys s = keys := by
        unfold stepKeys
        rw [if_neg (by simp [hk])]
      rw [hchunk, hstep]
      unfold encodeInternedString
      rw [if_pos h3, dictFind_mkDict, hk]
      show (encodeInternedStringIndex i, mkDict keys) = _
      have hmax : maxDictLen = 65535 := rfl
      rw [encodeInternedStringIndex_eq_refBytes i (by omega)]
    | none =>
      have hchunk : chunkOf keys s = encodeNormalString s := by
        unfold chunkOf
        rw [if_pos h3, hk]
      rw [hchunk]
      unfold encodeInternedString stepKeys
      rw [if_pos h3, dictFind_mkDict, hk]
      show (if true = true ∧ (mkDict keys).length < maxDictLen
          then ((Except.ok (encodeNormalString s) : Except Err (List Nat)),
            mkDict keys ++ [(s, (mkDict keys).length)])
          else (.ok (encodeNormalString s), mkDict keys)) = _
      rw [hmlen]
      by_cases hcap : keys.length < maxDictLen
      · rw [if_pos ⟨rfl, hcap⟩, if_pos ⟨h3, rfl, hcap⟩]
        unfold mkDict
        rw [mkDictFrom_append_one, Nat.zero_add]
      · rw [if_neg (by simp [hcap]), if_neg (by simp [hcap])]
  · have hchunk : chunkOf keys s = encodeNormalString s := by
      unfold chunkOf
      rw [if_neg h3]
    have hstep : stepKeys keys s = keys := by
      unfold stepKeys
      rw [if_neg (by simp [h3])]
    rw [hchunk, hstep]
    unfold encodeInternedString
    rw [if_neg h3]

/-- A run of interning-encoder calls emits the chunks `chunksFrom` and the
dictionary keys evolve by `runKeys`. -/
theorem encodeStrings_run (ss : List GoStr) (keys : List GoStr)
    (hlen : keys.length ≤ maxDictLen) :
    encodeStrings (mkDict keys) ss =
      (.ok (chunksFrom keys ss), mkDict (runKeys keys ss)) := by
  induction ss generalizing keys with
  | nil => rfl
  | cons s ss ih =>
    unfold encodeStrings
    rw [encodeInternedString_step keys s hlen]
    show (match encodeStrings (mkDict (stepKeys keys s)) ss with
      | (.error e, d2) => ((.error e : Except Err (List (List Nat))), d2)
      | (.ok ws, d2) => (.ok (chunkOf keys s :: ws), d2)) = _
    rw [ih (stepKeys keys s) (stepKeys_le keys s hlen)]
    rfl

/-- Decoding one emitted chunk evolves the decode dictionary exactly as the
encoder's `stepKeys` evolves the encode dictionary. -/
theorem decode_chunk_step (keys : List GoStr) (s : GoStr) (rest : List Nat)
    (hlen : keys.length ≤ maxDictLen) (h32 : s.length < 4294967296) :
    decodeInternedStringValue ⟨keys, chunkOf keys s ++ rest⟩ =
      (.ok s, ⟨stepKeys keys s, rest⟩) := by
  unfold chunkOf
  by_cases h3 : minInternedStringLen ≤ s.length
  · rw [if_pos h3]
    cases hk : keyIdx keys s with
    | some i =>
      show decodeInternedStringValue ⟨keys, refBytes i ++ rest⟩ = _
      have hi : i < keys.length := keyIdx_lt_length keys s i hk
      have hmax : maxDictLen = 65535 := rfl
      rw [decode_ref_value i keys rest hi (by omega), keyIdx_getD keys s i hk]
      have hstep : stepKeys keys s = keys := by
        unfold stepKeys
        rw [if_neg (by simp [hk])]
      rw [hstep]
    | none =>
      show decodeInternedStringValue ⟨keys, encodeNormalString s ++ rest⟩ = _
      rw [decode_literal_value s keys rest h32]
      have hsync : internStep keys s = stepKeys keys s := by
        unfold internStep stepKeys
        by_cases hcap : keys.length < maxDictLen
        · rw [if_pos ⟨h3, hcap⟩, if_pos ⟨h3, hk, hcap⟩]
        · rw [if_neg (by simp [hcap]), if_neg (by simp [hcap])]
      rw [hsync]
  · rw [if_neg h3]
    rw [decode_literal_value s keys rest h32]
    have h1 : internStep keys s = keys := by
      unfold internStep
      rw [if_neg (by simp [h3])]
    have h2 : stepKeys keys s = keys := by
      unfold stepKeys
      rw [if_neg (by simp [h3])]
    rw [h1, h2]

/-- Decoding the concatenated chunks of a run, starting from the decode
dictionary holding the same keys, returns the original strings and leaves
the dictionaries in lockstep. -/
theorem decodeStrings_run (ss : List GoStr) (keys : List GoStr) (rest : List Nat)
    (hlen : keys.length ≤ maxDictLen) (h32 : ∀ t ∈ ss, t.length < 4294967296) :
    decodeStrings ⟨keys, (chunksFrom keys ss).flatten ++ rest⟩ ss.length =
      (.ok ss, ⟨runKeys keys ss, rest⟩) := by
  induction ss generalizing keys with
  | nil => rfl
  | cons s ss ih =>
    have hbuf : (chunksFrom keys (s :: ss)).flatten ++ rest =
        chunkOf keys s ++ ((chunksFrom (stepKeys keys s) ss).flatten ++ rest) := by
      show (chunkOf keys s :: chunksFrom (stepKeys keys s) ss).flatten ++ rest = _
      rw [List.flatten_cons, List.append_assoc]
    rw [hbuf, List.length_cons]
    show (match decodeInternedStringValue
        ⟨keys, chunkOf keys s ++ ((chunksFrom (stepKeys keys s) ss).flatten ++ rest)⟩ with
      | (.error e, st1) => ((.error e : Except Err (List GoStr)), st1)
      | (.ok s1, st1) =>
        match decodeStrings st1 ss.length with
        | (.error e, st2) => (.error e, st2)
        | (.ok ss2, st2) => (.ok (s1 :: ss2), st2)) = _
    rw [decode_chunk_step keys s _ hlen (h32 s (by simp))]
    show (match decodeStrings
        ⟨stepKeys keys s, (chunksFrom (stepKeys keys s) ss).flatten ++ rest⟩ ss.length with
      | (.error e, st2) => ((.error e : Except Err (List GoStr)), st2)
      | (.ok ss2, st2) => (.ok (s :: ss2), st2)) = _
    rw [ih (stepKeys keys s) (stepKeys_le keys s hlen) (fun t ht => h32 t (by simp [ht]))]
    rfl

/-! ## Chunk classification and occurrence counting -/

theorem isRefChunk_refBytes (i : Nat) : isRefChunk (refBytes i) = true := by
  unfold refBytes
  split
  · rfl
  · split
    · rfl
    · rfl

theorem isLitChunk_refBytes (i : Nat) : isLitChunk (refBytes i) = false := by
  unfold refBytes
  split
  · rfl
  · split
    · rfl
    · rfl

theorem isLitChunk_encodeNormalString (s : GoStr) :
    isLitChunk (encodeNormalString s) = true := by
  unfold encodeNormalString
  by_cases h1 : s.length < 32
  · rw [if_pos h1]
    simp only [isLitChunk]
    rw [isFixedString_add _ h1]
    simp
  · rw [if_neg h1]
    by_cases h2 : s.length < 256
    · rw [if_pos h2]
      rfl
    · rw [if_neg h2]
      by_cases h3 : s.length < 65536
      · rw [if_pos h3]
        rfl
      · rw [if_neg h3]
        rfl

theorem isRefChunk_encodeNormalString (s : GoStr) :
    isRefChunk (encodeNormalString s) = false := by
  unfold encodeNormalString
  by_cases h1 : s.length < 32
  · rw [if_pos h1]
    show ((160 + s.length == msgpcode.FixExt1) || (160 + s.length == msgpcode.FixExt2) ||
      (160 + s.length == msgpcode.FixExt4)) = false
    simp only [Bool.or_eq_false_iff, beq_eq_false_iff_ne, ne_eq,
      msgpcode.FixExt1, msgpcode.FixExt2, msgpcode.FixExt4]
    omega
  · rw [if_neg h1]
    by_cases h2 : s.length < 256
    · rw [if_pos h2]
      rfl
    · rw [if_neg h2]
      by_cases h3 : s.length < 65536
      · rw [if_pos h3]
        rfl
      · rw [if_neg h3]
        rfl

theorem chunksFrom_length (keys ss : List GoStr) :
    (chunksFrom keys ss).length = ss.length := by
  induction ss generalizing keys with
  | nil => rfl
  | cons s ss ih => simp [chunksFrom, ih]

theorem chunksFrom_append (keys ss1 ss2 : List GoStr) :
    chunksFrom keys (ss1 ++ ss2) =
      chunksFrom keys ss1 ++ chunksFrom (runKeys keys ss1) ss2 := by
  induction ss1 generalizing keys with
  | nil => rfl
  | cons s ss1 ih => simp [chunksFrom, ih, runKeys]

theorem mem_stepKeys (keys : List GoStr) (t s : GoStr) (h : s ∈ keys) :
    s ∈ stepKeys keys t := by
  unfold stepKeys
  split
  · simp [h]
  · exact h

theorem mem_stepKeys_elim (keys : List GoStr) (s t : GoStr)
    (h : t ∈ stepKeys keys s) :
    t ∈ keys ∨ (t = s ∧ minInternedStringLen ≤ s.length) := by
  unfold stepKeys at h
  by_cases hc : minInternedStringLen ≤ s.length ∧ keyIdx keys s = none ∧
      keys.length < maxDictLen
  · rw [if_pos hc] at h
    rcases List.mem_append.mp h with h1 | h1
    · exact Or.inl h1
    · right
      exact ⟨by simpa using h1, hc.1⟩
  · rw [if_neg hc] at h
    exact Or.inl h

theorem mem_runKeys_elim (ss keys : List GoStr) (t : GoStr)
    (h : t ∈ runKeys keys ss) :
    t ∈ keys ∨ (t ∈ ss ∧ minInternedStringLen ≤ t.length) := by
  induction ss generalizing keys with
  | nil => exact Or.inl h
  | cons s ss ih =>
    rcases ih (stepKeys keys s) h with h1 | h1
    · rcases mem_stepKeys_elim keys s t h1 with h2 | h2
      · exact Or.inl h2
      · right
        refine ⟨by simp [h2.1], ?_⟩
        rw [h2.1]
        exact h2.2
    · right
      exact ⟨by simp [h1.1], h1.2⟩

theorem stepKeys_nodup (keys : List GoStr) (s : GoStr) (h : keys.Nodup) :
    (stepKeys keys s).Nodup := by
  unfold stepKeys
  by_cases hc : minInternedStringLen ≤ s.length ∧ keyIdx keys s = none ∧
      keys.length < maxDictLen
  · rw [if_pos hc]
    have hnot : s ∉ keys := (keyIdx_eq_none_iff keys s).mp hc.2.1
    simp [List.nodup_append, h, List.disjoint_singleton]
    intro hmem
    exact hnot hmem
  · rw [if_neg hc]
    exact h

theorem runKeys_nodup (ss keys : List GoStr) (h : keys.Nodup) :
    (runKeys keys ss).Nodup := by
  induction ss generalizing keys with
  | nil => exact h
  | cons s ss ih => exact ih (stepKeys keys s) (stepKeys_nodup keys s h)

theorem countP_zip_zero_of_not_mem (s : GoStr) (ss : List GoStr)
    (ws : List (List Nat)) (q : List Nat → Bool) (h : s ∉ ss) :
    ((ss.zip ws).countP (fun p => p.1 == s && q p.2)) = 0 := by
  refine List.countP_eq_zero.mpr ?_
  intro p hp
  have hmem := (List.of_mem_zip hp).1
  have hne : p.1 ≠ s := by
    intro he
    rw [he] at hmem
    exact h hmem
  simp [hne]

theorem countP_zip_chunks_of_mem (ss keys : List GoStr) (s : GoStr)
    (hs : s ∈ keys) (h3 : minInternedStringLen ≤ s.length) :
    ((ss.zip (chunksFrom keys ss)).countP
      (fun p => p.1 == s && isLitChunk p.2)) = 0 ∧
    ((ss.zip (chunksFrom keys ss)).countP
      (fun p => p.1 == s && isRefChunk p.2)) = ss.count s := by
  induction ss generalizing keys with
  | nil => exact ⟨rfl, rfl⟩
  | cons t ss ih =>
    have hzip : (t :: ss).zip (chunksFrom keys (t :: ss)) =
        (t, chunkOf keys t) :: ss.zip (chunksFrom (stepKeys keys t) ss) := rfl
    rw [hzip, List.countP_cons, List.countP_cons]
    obtain ⟨ih1, ih2⟩ := ih (stepKeys keys t) (mem_stepKeys keys t s hs)
    by_cases hts : t = s
    · subst hts
      have hk : ∃ i, keyIdx keys t = some i := by
        cases hkk : keyIdx keys t with
        | none => exact absurd ((keyIdx_eq_none_iff keys t).mp hkk) (by simp [hs])
        | some i => exact ⟨i, rfl⟩
      obtain ⟨i, hi⟩ := hk
      have hchunk : chunkOf keys t = refBytes i := by
        unfold chunkOf
        rw [if_pos h3, hi]
      rw [hchunk]
      constructor
      · simp [ih1, isLitChunk_refBytes]
      · simp [ih2, isRefChunk_refBytes, List.count_cons_self]
    · have hbeq : (s == t) = false := by
        simp only [beq_eq_false_iff_ne, ne_eq]
        exact fun he => hts he.symm
      have hbeq2 : (t == s) = false := by
        simp only [beq_eq_false_iff_ne, ne_eq]
        exact hts
      constructor
      · simp [ih1, hbeq2]
      · simp [ih2, List.count_cons, hbeq, hbeq2]

/-! ## The cap-filling string family -/

theorem fillStr_inj : Function.Injective fillStr := by
  intro i j h
  simp only [fillStr, List.cons.injEq, and_true] at h
  omega

@[simp] theorem fillStrs_length (n : Nat) : (fillStrs n).length = n := by
  simp [fillStrs]

theorem fillStrs_nodup (n : Nat) : (fillStrs n).Nodup :=
  (List.nodup_range n).map fillStr_inj

theorem fillStr_not_mem_fillStrs (m n : Nat) (h : n ≤ m) :
    fillStr m ∉ fillStrs n := by
  intro hmem
  simp only [fillStrs, List.mem_map, List.mem_range] at hmem
  obtain ⟨i, hi, heq⟩ := hmem
  have := fillStr_inj heq
  omega

theorem freshStr_not_mem (n : Nat) (h : n ≤ 65536) : freshStr ∉ fillStrs n := by
  intro hmem
  simp only [fillStrs, List.mem_map, List.mem_range] at hmem
  obtain ⟨i, hi, heq⟩ := hmem
  simp only [fillStr, freshStr, List.cons.injEq, and_true] at heq
  omega

theorem fillStrs_succ (m : Nat) : fillStrs (m + 1) = fillStrs m ++ [fillStr m] := by
  simp [fillStrs, List.range_succ]

theorem runKeys_fillStrs (n m : Nat) (h : m + n ≤ 65535) :
    runKeys (fillStrs m) ((List.range' m n).map fillStr) = fillStrs (m + n) := by
  induction n generalizing m with
  | zero => simp [runKeys]
  | succ n ih =>
    rw [List.range'_succ, List.map_cons]
    show runKeys (stepKeys (fillStrs m) (fillStr m)) ((List.range' (m + 1) n).map fillStr) = _
    have hstep : stepKeys (fillStrs m) (fillStr m) = fillStrs (m + 1) := by
      unfold stepKeys
      rw [if_pos ⟨by simp [fillStr, minInternedStringLen], (keyIdx_eq_none_iff _ _).mpr
        (fillStr_not_mem_fillStrs m m le_rfl), by
          rw [fillStrs_length]
          show m < maxDictLen
          have hmax : maxDictLen = 65535 := rfl
          omega⟩]
      exact (fillStrs_succ m).symm
    rw [hstep]
    have := ih (m + 1) (by omega)
    rw [this]
    congr 1
    omega

theorem runKeys_fill_full : runKeys [] (fillStrs 65535) = fillStrs 65535 := by
  have h0 : fillStrs 0 = [] := rfl
  have hr : fillStrs 65535 = (List.range' 0 65535).map fillStr := by
    rw [fillStrs, List.range_eq_range']
  calc runKeys [] (fillStrs 65535)
      = runKeys (fillStrs 0) ((List.range' 0 65535).map fillStr) := by rw [h0, ← hr]
    _ = fillStrs (0 + 65535) := runKeys_fillStrs 65535 0 (by omega)
    _ = fillStrs 65535 := by norm_num

/-! ## Error characterization: which errors each decode component can fail with -/

theorem readByte_err (st st1 : DecSt) (e : Err)
    (h : readByte st = (.error e, st1)) : e = .eof ∧ st1 = st := by
  unfold readByte at h
  cases hb : st.buf with
  | nil =>
    rw [hb] at h
    have h' : ((Except.error Err.eof : Except Err Nat), st) = (.error e, st1) := h
    injection h' with ha hb2
    injection ha with hee
    exact ⟨hee.symm, hb2.symm⟩
  | cons b rest =>
    rw [hb] at h
    have h' : ((Except.ok b : Except Err Nat), ({ st with buf := rest } : DecSt)) =
      (.error e, st1) := h
    injection h' with ha _
    exact absurd ha (by simp)

theorem readN_err (n : Nat) (st st1 : DecSt) (e : Err)
    (h : readN n st = (.error e, st1)) : e = .eof ∧ st1 = st := by
  unfold readN at h
  by_cases hle : n ≤ st.buf.length
  · rw [if_pos hle] at h
    injection h with ha _
    exact absurd ha (by simp)
  · rw [if_neg hle] at h
    injection h with ha hb
    injection ha with hee
    exact ⟨hee.symm, hb.symm⟩

theorem stringWithLen_err (n : Nat) (st st1 : DecSt) (e : Err)
    (h : stringWithLen n st = (.error e, st1)) : e = .eof ∧ st1 = st :=
  readN_err n st st1 e h

theorem extHeader_err (c : Nat) (st st1 : DecSt) (e : Err)
    (h : extHeader c st = (.error e, st1)) : e = .eof ∧ st1 = st := by
  unfold extHeader at h
  cases hr : readByte st with
  | mk r st2 =>
    rw [hr] at h
    cases r with
    | error e1 =>
      have h' : ((Except.error e1 : Except Err (Int × Nat)), st2) = (.error e, st1) := h
      injection h' with ha hb
      injection ha with hee
      obtain ⟨h1, h2⟩ := readByte_err st st2 e1 hr
      exact ⟨hee ▸ h1, hb ▸ h2⟩
    | ok b =>
      have h' : ((Except.ok (int8OfByte b,
          if c = msgpcode.FixExt1 then 1 else if c = msgpcode.FixExt2 then 2 else 4) :
          Except Err (Int × Nat)), st2) = (.error e, st1) := h
      injection h' with ha _
      exact absurd ha (by simp)

theorem decodeInternedStringWithLen_err (n : Nat) (i : Bool) (st st1 : DecSt) (e : Err)
    (h : decodeInternedStringWithLen n i st = (.error e, st1)) : e = .eof ∧ st1 = st := by
  unfold decodeInternedStringWithLen at h
  by_cases h0 : n = 0
  · rw [if_pos h0] at h
    injection h with ha _
    exact absurd ha (by simp)
  · rw [if_neg h0] at h
    cases hs : stringWithLen n st with
    | mk r st2 =>
      rw [hs] at h
      cases r with
      | error e1 =>
        have h' : ((Except.error e1 : Except Err GoStr), st2) = (.error e, st1) := h
        injection h' with ha hb
        injection ha with hee
        obtain ⟨h1, h2⟩ := stringWithLen_err n st st2 e1 hs
        exact ⟨hee ▸ h1, hb ▸ h2⟩
      | ok s1 =>
        have h' : (if i = true ∧ minInternedStringLen ≤ s1.length ∧
              st2.dict.length < maxDictLen
            then ((Except.ok s1 : Except Err GoStr),
              ({ st2 with dict := st2.dict ++ [s1] } : DecSt))
            else (.ok s1, st2)) = (.error e, st1) := h
        by_cases hc : i = true ∧ minInternedStringLen ≤ s1.length ∧
            st2.dict.length < maxDictLen
        · rw [if_pos hc] at h'
          injection h' with ha _
          exact absurd ha (by simp)
        · rw [if_neg hc] at h'
          injection h' with ha _
          exact absurd ha (by simp)

theorem decodeInternedStringIndex_err (n : Nat) (st st1 : DecSt) (e : Err)
    (h : decodeInternedStringIndex n st = (.error e, st1)) :
    e = .eof ∨ e = .malformedIndexWidth n := by
  unfold decodeInternedStringIndex at h
  by_cases h1 : n = 1
  · rw [if_pos h1] at h
    cases hr : readByte st with
    | mk r st2 =>
      rw [hr] at h
      cases r with
      | error e1 =>
        have h' : ((Except.error e1 : Except Err Nat), st2) = (.error e, st1) := h
        injection h' with ha _
        injection ha with hee
        exact Or.inl (hee ▸ (readByte_err st st2 e1 hr).1)
      | ok b =>
        injection h with ha _
        exact absurd ha (by simp)
  · rw [if_neg h1] at h
    by_cases h2 : n = 2
    · rw [if_pos h2] at h
      cases hr : readN 2 st with
      | mk r st2 =>
        rw [hr] at h
        cases r with
        | error e1 =>
          have h' : ((Except.error e1 : Except Err Nat), st2) = (.error e, st1) := h
          injection h' with ha _
          injection ha with hee
          exact Or.inl (hee ▸ (readN_err 2 st st2 e1 hr).1)
        | ok b =>
          injection h with ha _
          exact absurd ha (by simp)
    · rw [if_neg h2] at h
      by_cases h4 : n = 4
      · rw [if_pos h4] at h
        cases hr : readN 4 st with
        | mk r st2 =>
          rw [hr] at h
          cases r with
          | error e1 =>
            have h' : ((Except.error e1 : Except Err Nat), st2) = (.error e, st1) := h
            injection h' with ha _
            injection ha with hee
            exact Or.inl (hee ▸ (readN_err 4 st st2 e1 hr).1)
          | ok b =>
            injection h with ha _
            exact absurd ha (by simp)
      · rw [if_neg h4] at h
        injection h with ha _
        injection ha with hee
        exact Or.inr hee.symm

theorem internedStringAtIndex_err (st st1 : DecSt) (idx : Nat) (e : Err)
    (h : internedStringAtIndex st idx = (.error e, st1)) :
    e = .indexOutOfRange idx := by
  unfold internedStringAtIndex at h
  by_cases hle : st.dict.length ≤ idx
  · rw [if_pos hle] at h
    injection h with ha _
    injection ha with hee
    exact hee.symm
  · rw [if_neg hle] at h
    injection h with ha _
    exact absurd ha (by simp)

/-- `decodeInternedString` fails with `errUnexpectedCode` only through its
final default branch, which consumes nothing: the state is unchanged. -/
theorem decodeInternedString_unexpectedCode_state (c : Nat) (i : Bool)
    (st st1 : DecSt)
    (h : decodeInternedString c i st = (.error .unexpectedCode, st1)) :
    st1 = st := by
  unfold decodeInternedString at h
  by_cases hfs : msgpcode.IsFixedString c = true
  · rw [if_pos hfs] at h
    exact absurd (decodeInternedStringWithLen_err _ i st st1 _ h).1 (by simp)
  · rw [if_neg hfs] at h
    by_cases hnil : c = msgpcode.Nil
    · rw [if_pos hnil] at h
      injection h with ha _
      exact absurd ha (by simp)
    · rw [if_neg hnil] at h
      by_cases hext : c = msgpcode.FixExt1 ∨ c = msgpcode.FixExt2 ∨ c = msgpcode.FixExt4
      · rw [if_pos hext] at h
        cases he : extHeader c st with
        | mk r st2 =>
          rw [he] at h
          cases r with
          | error e1 =>
            have h' : ((Except.error e1 : Except Err GoStr), st2) =
              (.error .unexpectedCode, st1) := h
            injection h' with ha _
            injection ha with hee
            exact absurd ((hee ▸ (extHeader_err c st st2 e1 he).1 :
              Err.unexpectedCode = Err.eof)) (by simp)
          | ok p =>
            obtain ⟨tid, el⟩ := p
            have h' : (if tid ≠ internedStringExtID
                then ((Except.error (Err.extTypeMismatch tid) : Except Err GoStr), st2)
                else
                  match decodeInternedStringIndex el st2 with
                  | (.error e, st3) => (.error e, st3)
                  | (.ok idx, st3) => internedStringAtIndex st3 idx) =
              (.error .unexpectedCode, st1) := h
            by_cases htid : tid ≠ internedStringExtID
            · rw [if_pos htid] at h'
              injection h' with ha _
              injection ha with hee
              exact absurd hee (by simp)
            · rw [if_neg htid] at h'
              cases hd : decodeInternedStringIndex el st2 with
              | mk r2 st3 =>
                rw [hd] at h'
                cases r2 with
                | error e2 =>
                  have h'' : ((Except.error e2 : Except Err GoStr), st3) =
                    (.error .unexpectedCode, st1) := h'
                  injection h'' with ha _
                  injection ha with hee
                  rcases decodeInternedStringIndex_err el st2 st3 e2 hd with h2 | h2 <;>
                    · rw [h2] at hee
                      exact absurd hee (by simp)
                | ok idx =>
                  have h'' : internedStringAtIndex st3 idx =
                    (.error .unexpectedCode, st1) := h'
                  have := internedStringAtIndex_err st3 st1 idx Err.unexpectedCode h''
                  exact absurd this (by simp)
      · rw [if_neg hext] at h
        by_cases h8 : c = msgpcode.Str8 ∨ c = msgpcode.Bin8
        · rw [if_pos h8] at h
          cases hr : readByte st with
          | mk r st2 =>
            rw [hr] at h
            cases r with
            | error e1 =>
              have h' : ((Except.error e1 : Except Err GoStr), st2) =
                (.error .unexpectedCode, st1) := h
              injection h' with ha _
              injection ha with hee
              rw [(readByte_err st st2 e1 hr).1] at hee
              exact absurd hee (by simp)
            | ok n =>
              exact absurd (decodeInternedStringWithLen_err _ i st2 st1 _ h).1 (by simp)
        · rw [if_neg h8] at h
          by_cases h16 : c = msgpcode.Str16 ∨ c = msgpcode.Bin16
          · rw [if_pos h16] at h
            cases hr : readN 2 st with
            | mk r st2 =>
              rw [hr] at h
              cases r with
              | error e1 =>
                have h' : ((Except.error e1 : Except Err GoStr), st2) =
                  (.error .unexpectedCode, st1) := h
                injection h' with ha _
                injection ha with hee
                rw [(readN_err 2 st st2 e1 hr).1] at hee
                exact absurd hee (by simp)
              | ok b =>
                exact absurd (decodeInternedStringWithLen_err _ i st2 st1 _ h).1 (by simp)
          · rw [if_neg h16] at h
            by_cases h32 : c = msgpcode.Str32 ∨ c = msgpcode.Bin32
            · rw [if_pos h32] at h
              cases hr : readN 4 st with
              | mk r st2 =>
                rw [hr] at h
                cases r with
                | error e1 =>
                  have h' : ((Except.error e1 : Except Err GoStr), st2) =
                    (.error .unexpectedCode, st1) := h
                  injection h' with ha _
                  injection ha with hee
                  rw [(readN_err 4 st st2 e1 hr).1] at hee
                  exact absurd hee (by simp)
                | ok b =>
                  exact absurd (decodeInternedStringWithLen_err _ i st2 st1 _ h).1 (by simp)
            · rw [if_neg h32] at h
              injection h with _ hb
              exact hb.symm

/-! ## Size of the dictionary built by a run -/

theorem runKeys_length_le_dedup (ss : List GoStr) :
    (runKeys [] ss).length ≤
      ((ss.filter (fun t => minInternedStringLen ≤ t.length)).dedup).length := by
  have hnodup : (runKeys [] ss).Nodup := runKeys_nodup ss [] (by simp)
  have hsub : runKeys [] ss ⊆
      (ss.filter (fun t => minInternedStringLen ≤ t.length)).dedup := by
    intro t ht
    rcases mem_runKeys_elim ss [] t ht with h1 | h1
    · simp at h1
    · rw [List.mem_dedup, List.mem_filter]
      exact ⟨h1.1, by simpa using h1.2⟩
  calc (runKeys [] ss).length
      = (runKeys [] ss).toFinset.card := (List.toFinset_card_of_nodup hnodup).symm
    _ ≤ ((ss.filter (fun t => minInternedStringLen ≤ t.length)).dedup).toFinset.card := by
        refine Finset.card_le_card ?_
        intro x hx
        rw [List.mem_toFinset] at hx
        rw [List.mem_toFinset]
        exact hsub hx
    _ = ((ss.filter (fun t => minInternedStringLen ≤ t.length)).dedup).dedup.length :=
        List.card_toFinset _
    _ = ((ss.filter (fun t => minInternedStringLen ≤ t.length)).dedup).length := by
        rw [List.Nodup.dedup (List.nodup_dedup _)]

theorem runKeys_append (keys ss1 ss2 : List GoStr) :
    runKeys keys (ss1 ++ ss2) = runKeys (runKeys keys ss1) ss2 := by
  simp [runKeys, List.foldl_append]

theorem runKeys_two (keys : List GoStr) (a b : GoStr) :
    runKeys keys [a, b] = stepKeys (stepKeys keys a) b := rfl

theorem chunksFrom_two (keys : List GoStr) (a b : GoStr) :
    chunksFrom keys [a, b] = [chunkOf keys a, chunkOf (stepKeys keys a) b] := rfl

/-! ## Claim C1 -/

/-- C1 counterexample: a fresh interning encoder fed 65,535 distinct
eligible strings followed by the fresh length-3 string `freshStr` twice.
`freshStr` is offered `k = 2` times with the intern flag set in one encoder
instance, yet its occurrences produce zero reference chunks (both are
literals), not `k - 1 = 1`, because the dictionary reached its cap before
`freshStr` first appeared. -/
theorem intern_roundtrip_cap_counterexample :
    encodeStrings [] capInput =
      (.ok (chunksFrom [] capInput), mkDict (fillStrs 65535)) ∧
    minInternedStringLen ≤ freshStr.length ∧
    capInput.count freshStr = 2 ∧
    ((capInput.zip (chunksFrom [] capInput)).countP
      (fun p => p.1 == freshStr && isRefChunk p.2)) = 0 ∧
    ((capInput.zip (chunksFrom [] capInput)).countP
      (fun p => p.1 == freshStr && isLitChunk p.2)) = 2 := by
  have hfresh : freshStr ∉ fillStrs 65535 := freshStr_not_mem 65535 (by omega)
  have hknone : keyIdx (fillStrs 65535) freshStr = none :=
    (keyIdx_eq_none_iff _ _).mpr hfresh
  have hsteps : stepKeys (fillStrs 65535) freshStr = fillStrs 65535 := by
    unfold stepKeys
    rw [if_neg]
    rintro ⟨-, -, hlt⟩
    rw [fillStrs_length] at hlt
    exact absurd hlt (by decide)
  have hchunkK : chunkOf (fillStrs 65535) freshStr = encodeNormalString freshStr := by
    unfold chunkOf
    rw [if_pos (by decide), hknone]
  have hrun : runKeys [] capInput = fillStrs 65535 := by
    unfold capInput
    rw [runKeys_append, runKeys_fill_full, runKeys_two, hsteps, hsteps]
  have hchunks : chunksFrom [] capInput =
      chunksFrom [] (fillStrs 65535) ++
        [encodeNormalString freshStr, encodeNormalString freshStr] := by
    unfold capInput
    rw [chunksFrom_append, runKeys_fill_full, chunksFrom_two]
    simp only [hsteps, hchunkK]
  have hzip : capInput.zip (chunksFrom [] capInput) =
      (fillStrs 65535).zip (chunksFrom [] (fillStrs 65535)) ++
        [freshStr, freshStr].zip
          [encodeNormalString freshStr, encodeNormalString freshStr] := by
    rw [hchunks]
    unfold capInput
    rw [List.zip_append (by rw [chunksFrom_length])]
  refine ⟨?_, by decide, ?_, ?_, ?_⟩
  · have h := encodeStrings_run capInput [] (by simp [maxDictLen])
    rw [hrun] at h
    exact h
  · unfold capInput
    rw [List.count_append, List.count_eq_zero.mpr hfresh]
    rfl
  · rw [hzip, List.countP_append,
      countP_zip_zero_of_not_mem freshStr (fillStrs 65535) _ _ hfresh]
    simp [List.countP_cons, isRefChunk_encodeNormalString]
  · rw [hzip, List.countP_append,
      countP_zip_zero_of_not_mem freshStr (fillStrs 65535) _ _ hfresh]
    simp [List.countP_cons, isLitChunk_encodeNormalString]

/-- C1 (amended): for a fresh interning encoder fed `pre ++ s :: post`,
where `s` has length ≥ 3, occurs `k ≥ 2` times, first after `pre`, and
fewer than 65,535 distinct eligible strings occur in `pre` (so the
dictionary is still below its cap at `s`'s first occurrence — the amendment
the counterexample forces), exactly one literal chunk and `k - 1` reference
chunks are emitted for `s`, and a fresh interning decoder reproduces the
whole sequence identically and in order. -/
theorem intern_roundtrip_amended (pre post : List GoStr) (s : GoStr) (k : Nat)
    (hs3 : minInternedStringLen ≤ s.length) (hk : 2 ≤ k)
    (hcount : (pre ++ s :: post).count s = k) (hpre : s ∉ pre)
    (hcap : ((pre.filter (fun t => minInternedStringLen ≤ t.length)).dedup).length <
      maxDictLen)
    (h32 : ∀ t ∈ pre ++ s :: post, t.length < 4294967296) :
    encodeStrings [] (pre ++ s :: post) =
      (.ok (chunksFrom [] (pre ++ s :: post)),
        mkDict (runKeys [] (pre ++ s :: post))) ∧
    (((pre ++ s :: post).zip (chunksFrom [] (pre ++ s :: post))).countP
      (fun p => p.1 == s && isLitChunk p.2)) = 1 ∧
    (((pre ++ s :: post).zip (chunksFrom [] (pre ++ s :: post))).countP
      (fun p => p.1 == s && isRefChunk p.2)) = k - 1 ∧
    decodeStrings ⟨[], (chunksFrom [] (pre ++ s :: post)).flatten⟩
        (pre ++ s :: post).length =
      (.ok (pre ++ s :: post), ⟨runKeys [] (pre ++ s :: post), []⟩) := by
  have henc : encodeStrings [] (pre ++ s :: post) =
      (.ok (chunksFrom [] (pre ++ s :: post)),
        mkDict (runKeys [] (pre ++ s :: post))) :=
    encodeStrings_run (pre ++ s :: post) [] (by simp [maxDictLen])
  have hdec : decodeStrings ⟨[], (chunksFrom [] (pre ++ s :: post)).flatten⟩
      (pre ++ s :: post).length =
      (.ok (pre ++ s :: post), ⟨runKeys [] (pre ++ s :: post), []⟩) := by
    have h := decodeStrings_run (pre ++ s :: post) [] [] (by simp [maxDictLen]) h32
    simpa using h
  have hs_not : s ∉ runKeys [] pre := by
    intro hmem
    rcases mem_runKeys_elim pre [] s hmem with h1 | h1
    · simp at h1
    · exact hpre h1.1
  have hknone : keyIdx (runKeys [] pre) s = none := (keyIdx_eq_none_iff _ _).mpr hs_not
  have hklen : (runKeys [] pre).length < maxDictLen :=
    lt_of_le_of_lt (runKeys_length_le_dedup pre) hcap
  have hstep : stepKeys (runKeys [] pre) s = runKeys [] pre ++ [s] := by
    unfold stepKeys
    rw [if_pos ⟨hs3, hknone, hklen⟩]
  have hchunk : chunkOf (runKeys [] pre) s = encodeNormalString s := by
    unfold chunkOf
    rw [if_pos hs3, hknone]
  have hzip : (pre ++ s :: post).zip (chunksFrom [] (pre ++ s :: post)) =
      pre.zip (chunksFrom [] pre) ++
        ((s, encodeNormalString s) ::
          post.zip (chunksFrom (stepKeys (runKeys [] pre) s) post)) := by
    rw [chunksFrom_append, List.zip_append (by rw [chunksFrom_length])]
    congr 1
    show (s :: post).zip
      (chunkOf (runKeys [] pre) s :: chunksFrom (stepKeys (runKeys [] pre) s) post) = _
    rw [hchunk]
    rfl
  have hmem : s ∈ stepKeys (runKeys [] pre) s := by
    rw [hstep]
    simp
  obtain ⟨htail_lit, htail_ref⟩ :=
    countP_zip_chunks_of_mem post (stepKeys (runKeys [] pre) s) s hmem hs3
  have hpost_count : post.count s = k - 1 := by
    rw [List.count_append, List.count_eq_zero.mpr hpre, List.count_cons_self] at hcount
    omega
  refine ⟨henc, ?_, ?_, hdec⟩
  · rw [hzip, List.countP_append,
      countP_zip_zero_of_not_mem s pre _ _ hpre, List.countP_cons, htail_lit]
    simp [isLitChunk_encodeNormalString]
  · rw [hzip, List.countP_append,
      countP_zip_zero_of_not_mem s pre _ _ hpre, List.countP_cons, htail_ref]
    simp [isRefChunk_encodeNormalString, hpost_count]

/-- Witness for the amended C1 at a concrete input: the string `"aaa"`
offered twice to a fresh interning encoder. -/
theorem intern_roundtrip_amended_witness :
    (((([] : List GoStr) ++ [97, 97, 97] :: [[97, 97, 97]]).zip
      (chunksFrom [] (([] : List GoStr) ++ [97, 97, 97] :: [[97, 97, 97]]))).countP
      (fun p : GoStr × List Nat => p.1 == [97, 97, 97] && isRefChunk p.2)) = 2 - 1 ∧
    decodeStrings
        ⟨[], (chunksFrom [] (([] : List GoStr) ++ [97, 97, 97] :: [[97, 97, 97]])).flatten⟩
        (([] : List GoStr) ++ [97, 97, 97] :: [[97, 97, 97]]).length =
      (.ok (([] : List GoStr) ++ [97, 97, 97] :: [[97, 97, 97]]),
        ⟨runKeys [] (([] : List GoStr) ++ [97, 97, 97] :: [[97, 97, 97]]), []⟩) := by
  have h := intern_roundtrip_amended [] [[97, 97, 97]] [97, 97, 97] 2
    (by decide) (by decide) (by decide) (by simp) (by decide) (by decide)
  exact ⟨h.2.2.1, h.2.2.2⟩

/-! ## Claim C2 -/

theorem encodeStrings_cap_literal (dict : EncDict) (s : GoStr) (k : Nat)
    (hdict : dict.length = maxDictLen) (hs3 : minInternedStringLen ≤ s.length)
    (hnew : dictFind dict s = none) :
    encodeStrings dict (List.replicate k s) =
      (.ok (List.replicate k (encodeNormalString s)), dict) := by
  have hone : encodeInternedString dict s true = (.ok (encodeNormalString s), dict) := by
    unfold encodeInternedString
    rw [if_pos hs3, hnew]
    have hgoal : (if true = true ∧ dict.length < maxDictLen
        then ((Except.ok (encodeNormalString s) : Except Err (List Nat)),
          dict ++ [(s, dict.length)])
        else (.ok (encodeNormalString s), dict)) =
        ((Except.ok (encodeNormalString s) : Except Err (List Nat)), dict) := by
      rw [if_neg]
      rintro ⟨-, hlt⟩
      omega
    exact hgoal
  induction k with
  | zero => rfl
  | succ k ih =>
    rw [List.replicate_succ]
    unfold encodeStrings
    rw [hone]
    show (match encodeStrings dict (List.replicate k s) with
      | (.error e, d2) => ((.error e : Except Err (List (List Nat))), d2)
      | (.ok ws, d2) => (.ok (encodeNormalString s :: ws), d2)) = _
    rw [ih]
    rfl

theorem decodeStrings_cap_literal (dd : List GoStr) (s : GoStr)
    (hdd : maxDictLen ≤ dd.length) (h32 : s.length < 4294967296) (k : Nat) :
    ∀ rest : List Nat,
    decodeStrings ⟨dd, (List.replicate k (encodeNormalString s)).flatten ++ rest⟩ k =
      (.ok (List.replicate k s), ⟨dd, rest⟩) := by
  induction k with
  | zero => intro rest; rfl
  | succ k ih =>
    intro rest
    rw [List.replicate_succ, List.flatten_cons, List.append_assoc]
    show (match decodeInternedStringValue ⟨dd, encodeNormalString s ++
        ((List.replicate k (encodeNormalString s)).flatten ++ rest)⟩ with
      | (.error e, st1) => ((.error e : Except Err (List GoStr)), st1)
      | (.ok s1, st1) =>
        match decodeStrings st1 k with
        | (.error e, st2) => (.error e, st2)
        | (.ok ss2, st2) => (.ok (s1 :: ss2), st2)) = _
    rw [decode_literal_value s dd _ h32]
    have hint : internStep dd s = dd := by
      unfold internStep
      rw [if_neg]
      rintro ⟨-, hlt⟩
      omega
    rw [hint]
    show (match decodeStrings
        ⟨dd, (List.replicate k (encodeNormalString s)).flatten ++ rest⟩ k with
      | (.error e, st2) => ((.error e : Except Err (List GoStr)), st2)
      | (.ok ss2, st2) => (.ok (s :: ss2), st2)) = _
    rw [ih rest]
    rfl

/-- C2: once the dictionaries hold 65,535 entries, a new distinct eligible
string (length ≥ 3, not already present) is encoded and decoded as a plain
literal on every one of its `k` recurrences and is never inserted into the
encode or the decode dictionary. -/
theorem cap_permanent (dict : EncDict) (dd : List GoStr) (s : GoStr) (k : Nat)
    (hdict : dict.length = maxDictLen) (hdd : dd.length = maxDictLen)
    (hs3 : minInternedStringLen ≤ s.length) (hnew : dictFind dict s = none)
    (h32 : s.length < 4294967296) :
    encodeStrings dict (List.replicate k s) =
      (.ok (List.replicate k (encodeNormalString s)), dict) ∧
    decodeStrings ⟨dd, (List.replicate k (encodeNormalString s)).flatten⟩ k =
      (.ok (List.replicate k s), ⟨dd, []⟩) := by
  constructor
  · exact encodeStrings_cap_literal dict s k hdict hs3 hnew
  · have h := decodeStrings_cap_literal dd s (by omega) h32 k []
    simpa using h

/-- Witness for C2 at a concrete full dictionary: the 65,535 `fillStr`
strings fill both dictionaries; `freshStr` offered twice stays a literal. -/
theorem cap_permanent_witness :
    encodeStrings (mkDict (fillStrs 65535)) (List.replicate 2 freshStr) =
      (.ok (List.replicate 2 (encodeNormalString freshStr)), mkDict (fillStrs 65535)) ∧
    decodeStrings
        ⟨fillStrs 65535, (List.replicate 2 (encodeNormalString freshStr)).flatten⟩ 2 =
      (.ok (List.replicate 2 freshStr), ⟨fillStrs 65535, []⟩) := by
  refine cap_permanent (mkDict (fillStrs 65535)) (fillStrs 65535) freshStr 2
    ?_ ?_ (by decide) ?_ (by decide)
  · rw [mkDict, mkDictFrom_length, fillStrs_length]
    rfl
  · rw [fillStrs_length]
    rfl
  · rw [dictFind_mkDict]
    exact (keyIdx_eq_none_iff _ _).mpr (freshStr_not_mem 65535 (by omega))

/-! ## Claim C3 -/

theorem internedStringAtIndex_ge (dd : List GoStr) (rest : List Nat) (idx : Nat)
    (h : dd.length ≤ idx) :
    internedStringAtIndex ⟨dd, rest⟩ idx =
      (.error (.indexOutOfRange idx), ⟨dd, rest⟩) := by
  unfold internedStringAtIndex
  rw [if_pos (show (⟨dd, rest⟩ : DecSt).dict.length ≤ idx from h)]

/-- C3: decoding a reference envelope (reserved type, payload length 1, 2,
or 4) reads the big-endian index from the payload; an index at or past the
decode-dictionary size fails with IndexOutOfRange, otherwise the stored
string at that index is returned; in both cases the decode dictionary is
unchanged. -/
theorem reference_decode_spec (c n : Nat)
    (hcn : (c = msgpcode.FixExt1 ∧ n = 1) ∨ (c = msgpcode.FixExt2 ∧ n = 2) ∨
      (c = msgpcode.FixExt4 ∧ n = 4))
    (i : Bool) (dd : List GoStr) (p rest : List Nat) (hp : p.length = n) :
    decodeInternedString c i ⟨dd, 128 :: (p ++ rest)⟩ =
      (if dd.length ≤ fromBigEndian p
        then (.error (.indexOutOfRange (fromBigEndian p)), ⟨dd, rest⟩)
        else (.ok (dd.getD (fromBigEndian p) []), ⟨dd, rest⟩)) := by
  have hidx : decodeInternedStringIndex n ⟨dd, p ++ rest⟩ =
      (.ok (fromBigEndian p), ⟨dd, rest⟩) := by
    rcases hcn with ⟨-, rfl⟩ | ⟨-, rfl⟩ | ⟨-, rfl⟩
    · obtain ⟨b, rfl⟩ := List.length_eq_one.mp hp
      rw [show ([b] : List Nat) ++ rest = b :: rest from rfl,
        decodeInternedStringIndex_one, fromBigEndian_one]
    · obtain ⟨a, b, rfl⟩ := List.length_eq_two.mp hp
      unfold decodeInternedStringIndex
      rw [if_neg (by decide), if_pos rfl]
      have hr : readN 2 ⟨dd, [a, b] ++ rest⟩ = (.ok [a, b], ⟨dd, rest⟩) := by
        have h := readN_append dd [a, b] rest
        simpa using h
      rw [hr]
    · rcases p with _ | ⟨a, p⟩
      · simp at hp
      rcases p with _ | ⟨b, p⟩
      · simp at hp
      rcases p with _ | ⟨a3, p⟩
      · simp at hp
      rcases p with _ | ⟨a4, p⟩
      · simp at hp
      rcases p with _ | ⟨a5, p⟩
      · unfold decodeInternedStringIndex
        rw [if_neg (by decide), if_neg (by decide), if_pos rfl]
        have hr : readN 4 ⟨dd, [a, b, a3, a4] ++ rest⟩ =
            (.ok [a, b, a3, a4], ⟨dd, rest⟩) := by
          have h := readN_append dd [a, b, a3, a4] rest
          simpa using h
        rw [hr]
      · simp only [List.length_cons] at hp
        omega
  have hext : (c = msgpcode.FixExt1 ∧ n = 1) ∨ (c = msgpcode.FixExt2 ∧ n = 2) ∨
      (c = msgpcode.FixExt4 ∧ n = 4) := hcn
  rw [decodeInternedString_ext c n hext i dd 128 (p ++ rest), if_neg (by decide),
    hidx]
  by_cases hle : dd.length ≤ fromBigEndian p
  · rw [if_pos hle]
    exact internedStringAtIndex_ge dd rest _ hle
  · rw [if_neg hle]
    exact internedStringAtIndex_lt dd rest _ (by omega)

/-- Witness for C3: a 1-byte reference to index 0 of a one-entry decode
dictionary. -/
theorem reference_decode_spec_witness :
    decodeInternedString msgpcode.FixExt1 true ⟨[[97, 97, 97]], [128, 0]⟩ =
      (.ok [97, 97, 97], ⟨[[97, 97, 97]], []⟩) := by
  have h := reference_decode_spec msgpcode.FixExt1 1 (Or.inl ⟨rfl, rfl⟩) true
    [[97, 97, 97]] [0] [] rfl
  simpa [fromBigEndian] using h

/-! ## Claim C4 -/

/-- C4: the interface-typed decode entry point binds a successfully decoded
interned string; on an UnexpectedCode failure it rewinds exactly one byte
(back to the original stream position, with the dictionary untouched) and
delegates to the host's generic value decoder `g`; any other error
propagates unmodified. -/
theorem interface_dispatch_spec (g : DecSt → Except Err IVal × DecSt)
    (st : DecSt) (c : Nat) (rest : List Nat) (hbuf : st.buf = c :: rest) :
    decodeInternedInterfaceValue g st =
      match decodeInternedString c true ⟨st.dict, rest⟩ with
      | (.ok s, st2) => (.ok (.str s), st2)
      | (.error .unexpectedCode, _) => g st
      | (.error e, st2) => (.error e, st2) := by
  obtain ⟨dict, buf⟩ := st
  simp only at hbuf
  subst hbuf
  unfold decodeInternedInterfaceValue
  rw [readByte_cons]
  show (match decodeInternedString c true ⟨dict, rest⟩ with
    | (.ok s, st2) => ((Except.ok (IVal.str s) : Except Err IVal), st2)
    | (.error e, st2) =>
      if e ≠ Err.unexpectedCode then (.error e, st2)
      else g ⟨st2.dict, c :: st2.buf⟩) = _
  cases hd : decodeInternedString c true ⟨dict, rest⟩ with
  | mk r st2 =>
    cases r with
    | ok s => rfl
    | error e =>
      cases e with
      | unexpectedCode =>
        have hst : st2 = ⟨dict, rest⟩ :=
          decodeInternedString_unexpectedCode_state c true _ _ hd
        subst hst
        rfl
      | eof => rfl
      | extTypeMismatch t => rfl
      | malformedIndexWidth m => rfl
      | indexOutOfRange j => rfl
      | indexOverflow j => rfl
      | invalidCode b => rfl

/-- Witness for C4: the code byte `0xc1` is never a string code, so the
entry point delegates to the generic decoder at the original position. -/
theorem interface_dispatch_spec_witness :
    decodeInternedInterfaceValue (fun st => (.ok (.other 7), st)) ⟨[], [0xc1, 5]⟩ =
      (.ok (.other 7), ⟨[], [0xc1, 5]⟩) := by
  have h := interface_dispatch_spec (fun st => (.ok (.other 7), st))
    ⟨[], [0xc1, 5]⟩ 0xc1 [5] rfl
  rw [h]
  rfl

/-! ## Claim C5 -/

/-- C5: the reference-index encoder picks the narrowest of the 1/2/4-byte
big-endian representations in the matching fixed-extension envelope tagged
with the reserved type, failing with IndexOverflow past the 4-byte range —
exactly the spec-worded Reference Codec. -/
theorem encodeIndex_spec (idx : Nat) :
    encodeInternedStringIndex idx = specEncodeIndex idx := by
  have h1 : beBytes 1 idx = byte1 idx := by simp [beBytes, byte1]
  have h2 : beBytes 2 idx = byte2 idx := by simp [beBytes, byte2]
  have h4 : beBytes 4 idx = byte4 idx := by
    simp only [beBytes, byte4, Nat.div_div_eq_div_mul]
    norm_num
  unfold encodeInternedStringIndex specEncodeIndex
  rw [h1, h2, h4]

/-! ## Claim C6 -/

/-- C6: the reference-index decoder reads exactly 1, 2, or 4 bytes as a
big-endian unsigned integer; any other length fails with
MalformedIndexWidth without consuming input (and a too-short stream fails
with the read error, also without consuming input in this model). -/
theorem decodeIndex_spec (n : Nat) (st : DecSt) :
    decodeInternedStringIndex n st =
      if n = 1 ∨ n = 2 ∨ n = 4 then
        if n ≤ st.buf.length then
          (.ok (fromBigEndian (st.buf.take n)), ⟨st.dict, st.buf.drop n⟩)
        else (.error .eof, st)
      else (.error (.malformedIndexWidth n), st) := by
  obtain ⟨dict, buf⟩ := st
  by_cases h1 : n = 1
  · subst h1
    rw [if_pos (by decide)]
    unfold decodeInternedStringIndex
    rw [if_pos rfl]
    cases buf with
    | nil =>
      rw [if_neg (by simp)]
      rfl
    | cons b rest =>
      rw [if_pos (by simp)]
      show ((Except.ok b : Except Err Nat), (⟨dict, rest⟩ : DecSt)) = _
      rw [show ((b :: rest).take 1 : List Nat) = [b] from rfl, fromBigEndian_one,
        show ((b :: rest).drop 1 : List Nat) = rest from rfl]
  · by_cases h2 : n = 2
    · subst h2
      rw [if_pos (by decide)]
      unfold decodeInternedStringIndex
      rw [if_neg (by decide), if_pos rfl]
      unfold readN
      by_cases hle : 2 ≤ buf.length
      · rw [if_pos hle, if_pos hle]
      · rw [if_neg hle, if_neg hle]
    · by_cases h4 : n = 4
      · subst h4
        rw [if_pos (by decide)]
        unfold decodeInternedStringIndex
        rw [if_neg (by decide), if_neg (by decide), if_pos rfl]
        unfold readN
        by_cases hle : 4 ≤ buf.length
        · rw [if_pos hle, if_pos hle]
        · rw [if_neg hle, if_neg hle]
      · rw [if_neg (by simp [h1, h2, h4])]
        unfold decodeInternedStringIndex
        rw [if_neg h1, if_neg h2, if_neg h4]

/-! ## Claim C7 -/

/-- C7: a string of length < 3 is always encoded as a plain literal (the
fixed short form, never a reference) with the encode dictionary untouched,
and decoding that literal returns it with the decode dictionary untouched —
regardless of either intern flag. -/
theorem short_string_literal (dict : EncDict) (dd : List GoStr) (s : GoStr)
    (i1 i2 : Bool) (rest : List Nat) (hs : s.length < minInternedStringLen) :
    encodeInternedString dict s i1 = (.ok (encodeNormalString s), dict) ∧
    encodeNormalString s = (160 + s.length) :: s ∧
    decodeInternedString (160 + s.length) i2 ⟨dd, s ++ rest⟩ =
      (.ok s, ⟨dd, rest⟩) := by
  have hmin : minInternedStringLen = 3 := rfl
  have h32 : s.length < 32 := by omega
  refine ⟨?_, ?_, ?_⟩
  · unfold encodeInternedString
    rw [if_neg (by omega)]
  · unfold encodeNormalString
    rw [if_pos h32]
  · unfold decodeInternedString
    have hmask : (160 + s.length) &&& msgpcode.FixedStrMask = s.length :=
      fixedStr_land _ h32
    rw [if_pos (isFixedString_add _ h32), hmask,
      decodeInternedStringWithLen_exact, if_neg (by omega)]

/-- Witness for C7: the length-2 string `"ab"`. -/
theorem short_string_literal_witness :
    encodeInternedString [] [97, 98] true = (.ok (encodeNormalString [97, 98]), []) ∧
    encodeNormalString [97, 98] = (160 + ([97, 98] : GoStr).length) :: [97, 98] ∧
    decodeInternedString (160 + ([97, 98] : GoStr).length) false
        ⟨[], [97, 98] ++ []⟩ = (.ok [97, 98], ⟨[], []⟩) :=
  short_string_literal [] [] [97, 98] true false [] (by decide)

/-! ## Claim C8 -/

/-- C8: a fixed-extension envelope whose type-tag byte is not the reserved
interned-string identifier fails with ExtensionTypeMismatch. -/
theorem ext_type_mismatch_spec (c : Nat)
    (hc : c = msgpcode.FixExt1 ∨ c = msgpcode.FixExt2 ∨ c = msgpcode.FixExt4)
    (i : Bool) (dd : List GoStr) (t : Nat) (rest : List Nat)
    (ht : int8OfByte t ≠ internedStringExtID) :
    decodeInternedString c i ⟨dd, t :: rest⟩ =
      (.error (.extTypeMismatch (int8OfByte t)), ⟨dd, rest⟩) := by
  rcases hc with rfl | rfl | rfl
  · rw [decodeInternedString_ext msgpcode.FixExt1 1 (Or.inl ⟨rfl, rfl⟩),
      if_pos ht]
  · rw [decodeInternedString_ext msgpcode.FixExt2 2 (Or.inr (Or.inl ⟨rfl, rfl⟩)),
      if_pos ht]
  · rw [decodeInternedString_ext msgpcode.FixExt4 4 (Or.inr (Or.inr ⟨rfl, rfl⟩)),
      if_pos ht]

/-- Witness for C8: type tag byte 5 on a FixExt1 envelope. -/
theorem ext_type_mismatch_spec_witness :
    decodeInternedString msgpcode.FixExt1 true ⟨[], [5, 9]⟩ =
      (.error (.extTypeMismatch 5), ⟨[], [9]⟩) := by
  have h := ext_type_mismatch_spec msgpcode.FixExt1 (Or.inl rfl) true [] 5 [9]
    (by decide)
  simpa [int8OfByte] using h

/-! ## Claim C9 -/

/-- C9: a literal decode that fails while reading the payload bytes returns
the read error with the decoder state — in particular the decode
dictionary — unchanged: an entry is appended only after the full literal
has been read. -/
theorem literal_error_dict_unchanged (n : Nat) (i : Bool) (st : DecSt)
    (hshort : st.buf.length < n) :
    decodeInternedStringWithLen n i st = (.error .eof, st) := by
  unfold decodeInternedStringWithLen
  rw [if_neg (by omega)]
  have hswl : stringWithLen n st = (.error .eof, st) := by
    unfold stringWithLen readN
    rw [if_neg (by omega)]
  rw [hswl]

/-- Witness for C9: a 3-byte literal whose stream holds only 2 bytes. -/
theorem literal_error_dict_unchanged_witness :
    decodeInternedStringWithLen 3 true ⟨[], [1, 2]⟩ =
      (.error .eof, ⟨[], [1, 2]⟩) :=
  literal_error_dict_unchanged 3 true ⟨[], [1, 2]⟩ (by decide)

/-! ## Claim C10 -/

/-- C10: the decoder appends every successfully decoded eligible literal
without checking for presence: a wire stream carrying the same literal
twice yields two decode-dictionary entries holding the same string at
distinct indices. -/
theorem duplicate_literal_duplicate_entries (s : GoStr) (dd : List GoStr)
    (hs3 : minInternedStringLen ≤ s.length) (hcap : dd.length + 1 < maxDictLen)
    (h32 : s.length < 4294967296) :
    decodeStrings ⟨dd, encodeNormalString s ++ encodeNormalString s⟩ 2 =
      (.ok [s, s], ⟨dd ++ [s, s], []⟩) := by
  have hstep1 : internStep dd s = dd ++ [s] := by
    unfold internStep
    rw [if_pos ⟨hs3, by omega⟩]
  have hstep2 : internStep (dd ++ [s]) s = dd ++ [s, s] := by
    unfold internStep
    rw [if_pos ⟨hs3, by simp only [List.length_append, List.length_cons,
      List.length_nil]; omega⟩]
    simp
  have h1 : decodeInternedStringValue ⟨dd, encodeNormalString s ++ encodeNormalString s⟩ =
      (.ok s, ⟨dd ++ [s], encodeNormalString s⟩) := by
    rw [decode_literal_value s dd _ h32, hstep1]
  have h2 : decodeInternedStringValue ⟨dd ++ [s], encodeNormalString s⟩ =
      (.ok s, ⟨dd ++ [s, s], []⟩) := by
    have h := decode_literal_value s (dd ++ [s]) [] h32
    rw [hstep2] at h
    simpa using h
  have h3 : decodeStrings ⟨dd ++ [s], encodeNormalString s⟩ 1 =
      (.ok [s], ⟨dd ++ [s, s], []⟩) := by
    show (match decodeInternedStringValue ⟨dd ++ [s], encodeNormalString s⟩ with
      | (.error e, st1) => ((.error e : Except Err (List GoStr)), st1)
      | (.ok s1, st1) =>
        match decodeStrings st1 0 with
        | (.error e, st2) => (.error e, st2)
        | (.ok ss2, st2) => (.ok (s1 :: ss2), st2)) = _
    rw [h2]
    rfl
  show (match decodeInternedStringValue
      ⟨dd, encodeNormalString s ++ encodeNormalString s⟩ with
    | (.error e, st1) => ((.error e : Except Err (List GoStr)), st1)
    | (.ok s1, st1) =>
      match decodeStrings st1 1 with
      | (.error e, st2) => (.error e, st2)
      | (.ok ss2, st2) => (.ok (s1 :: ss2), st2)) = _
  rw [h1]
  show (match decodeStrings ⟨dd ++ [s], encodeNormalString s⟩ 1 with
    | (.error e, st2) => ((.error e : Except Err (List GoStr)), st2)
    | (.ok ss2, st2) => (.ok (s :: ss2), st2)) = _
  rw [h3]

/-- Witness for C10: the literal `"abc"` appearing twice on the wire. -/
theorem duplicate_literal_duplicate_entries_witness :
    decodeStrings ⟨[], encodeNormalString [97, 98, 99] ++ encodeNormalString [97, 98, 99]⟩ 2 =
      (.ok [[97, 98, 99], [97, 98, 99]], ⟨[] ++ [[97, 98, 99], [97, 98, 99]], []⟩) :=
  duplicate_literal_duplicate_entries [97, 98, 99] [] (by decide) (by decide)
    (by decide)

end Msgpack
